import Mathlib

/-!
Shallow embedding of the serializer-usage analyzer
(`analyze_serializer_usage.py` and `find_unused_serializers.py`).

Source files are scanned line by line with a fixed set of regular-expression
patterns.  The patterns only use literals, the classes `\w`, `\s`, `.`,
`[A-Za-z]`, `['"]`, `[^)]`, `[^()\n]`, `[^\n]`, `[ \t]`, greedy `*`/`+`/`?`,
lazy `*?`, a lazy bounded repeat `{0,20}?`, alternation of literals and one
capture group, so we embed exactly this fragment with a backtracking matcher
whose preference order follows the Python `re` engine (character classes are
taken at their ASCII meaning).  A file is a path together with `Option`al
text: `none` models a file whose read raises `UnicodeDecodeError`/`IOError`.
-/

namespace SerScan

/-- ASCII word character, the `\w` class of the patterns. -/
def isWordChar (c : Char) : Bool :=
  ('a' ≤ c && c ≤ 'z') || ('A' ≤ c && c ≤ 'Z') || ('0' ≤ c && c ≤ '9') || c = '_'

/-- ASCII whitespace, the `\s` class of the patterns (and of `str.strip`). -/
def isSpaceChar (c : Char) : Bool :=
  c = ' ' || c = '\t' || c = '\n' || c = '\r' || c = '\x0b' || c = '\x0c'

/-- The character classes occurring in the analyzer's patterns. -/
inductive CClass where
  | lit : Char → CClass        -- a literal character
  | word : CClass              -- \w
  | space : CClass             -- \s
  | dot : CClass               -- . without re.DOTALL
  | dotAll : CClass            -- . with re.DOTALL
  | alpha : CClass             -- [A-Za-z]
  | quote : CClass             -- ['"]
  | notRParen : CClass         -- [^)]
  | notParenNL : CClass        -- [^()\n]
  | notNL : CClass             -- [^\n]
  | spaceTab : CClass          -- [ \t]
deriving DecidableEq

def CClass.test : CClass → Char → Bool
  | .lit c, d => c = d
  | .word, d => isWordChar d
  | .space, d => isSpaceChar d
  | .dot, d => d ≠ '\n'
  | .dotAll, _ => true
  | .alpha, d => ('A' ≤ d && d ≤ 'Z') || ('a' ≤ d && d ≤ 'z')
  | .quote, d => d = '\'' || d = '"'
  | .notRParen, d => d ≠ ')'
  | .notParenNL, d => d ≠ '(' && d ≠ ')' && d ≠ '\n'
  | .notNL, d => d ≠ '\n'
  | .spaceTab, d => d = ' ' || d = '\t'

/-- The regex fragment used by the analyzer's patterns. -/
inductive Regex where
  | eps : Regex
  | cls : CClass → Regex
  | seq : Regex → Regex → Regex
  | alt : Regex → Regex → Regex
  | opt : Regex → Regex        -- greedy (?:r)?
  | starG : CClass → Regex     -- greedy k*
  | plusG : CClass → Regex     -- greedy k+
  | starL : CClass → Regex     -- lazy k*?
  | grp : Regex → Regex        -- the capture group (group 1)

/-- A literal string as a regex. -/
def Regex.lits (s : String) : Regex :=
  s.data.foldr (fun c r => .seq (.cls (.lit c)) r) .eps

/-- One alternative produced by the matcher: the remaining input, the
absolute position reached, and the span of group 1 if it was crossed. -/
structure MRes where
  rest : List Char
  pos : Nat
  grp : Option (Nat × Nat)
deriving DecidableEq, Repr

def mergeGrp : Option (Nat × Nat) → Option (Nat × Nat) → Option (Nat × Nat)
  | some x, _ => some x
  | none, b => b

/-- Length of the maximal run of characters of class `k` at the front. -/
def charRun (k : CClass) : List Char → Nat
  | [] => 0
  | c :: cs => if k.test c then charRun k cs + 1 else 0

/-- Backtracking matcher: all ways to match `r` at the front of `s`
(at absolute position `p`), in the preference order of the `re` engine. -/
def Regex.matchM : Regex → List Char → Nat → List MRes
  | .eps, s, p => [⟨s, p, none⟩]
  | .cls k, s, p =>
    match s with
    | [] => []
    | c :: cs => if k.test c then [⟨cs, p + 1, none⟩] else []
  | .seq a b, s, p =>
    (a.matchM s p).flatMap fun r =>
      (b.matchM r.rest r.pos).map fun r2 => ⟨r2.rest, r2.pos, mergeGrp r.grp r2.grp⟩
  | .alt a b, s, p => a.matchM s p ++ b.matchM s p
  | .opt a, s, p => a.matchM s p ++ [⟨s, p, none⟩]
  | .starG k, s, p =>
    let n := charRun k s
    (List.range (n + 1)).map fun i => ⟨s.drop (n - i), p + (n - i), none⟩
  | .plusG k, s, p =>
    let n := charRun k s
    (List.range n).map fun i => ⟨s.drop (n - i), p + (n - i), none⟩
  | .starL k, s, p =>
    let n := charRun k s
    (List.range (n + 1)).map fun i => ⟨s.drop i, p + i, none⟩
  | .grp a, s, p => (a.matchM s p).map fun r => ⟨r.rest, r.pos, some (p, r.pos)⟩

/-- Lazy bounded repetition `(?:a){0,n}?` as used in the
`get_serializer` pattern. -/
def matchRepLazy (a : Regex) : Nat → List Char → Nat → List MRes
  | 0, s, p => [⟨s, p, none⟩]
  | n + 1, s, p =>
    ⟨s, p, none⟩ :: (a.matchM s p).flatMap fun r =>
      (matchRepLazy a n r.rest r.pos).map fun r2 => ⟨r2.rest, r2.pos, mergeGrp r.grp r2.grp⟩

/-- `re.search` style scan: try each start position from the left, return the
first position (with the preferred match there) where the matcher succeeds. -/
def searchAux (m : List Char → Nat → List MRes) : List Char → Nat → Option (Nat × MRes)
  | [], p =>
    match m [] p with
    | r :: _ => some (p, r)
    | [] => none
  | s@(_ :: t), p =>
    match m s p with
    | r :: _ => some (p, r)
    | [] => searchAux m t (p + 1)

/-- Whether `re.search(r, line)` succeeds. -/
def Regex.search (r : Regex) (line : List Char) : Bool :=
  (searchAux r.matchM line 0).isSome

/-- `re.finditer`: repeated non-overlapping leftmost search, each later search
starting at the end of the previous match. -/
def findIterAux (m : List Char → Nat → List MRes) (s : List Char) :
    Nat → Nat → List (Nat × MRes)
  | 0, _ => []
  | fuel + 1, start =>
    match searchAux m (s.drop start) start with
    | none => []
    | some (st, r) =>
      (st, r) :: findIterAux m s fuel (if st < r.pos then r.pos else st + 1)

def Regex.findIter (r : Regex) (s : List Char) : List (Nat × MRes) :=
  findIterAux r.matchM s (s.length + 1) 0

/-- Substring test, Python's `needle in hay`. -/
def isPrefixList : List Char → List Char → Bool
  | [], _ => true
  | _ :: _, [] => false
  | a :: as, b :: bs => a = b && isPrefixList as bs

def subStr (needle : List Char) : List Char → Bool
  | [] => needle.isEmpty
  | c :: rest => isPrefixList needle (c :: rest) || subStr needle rest

/-- Python's `str.split(sep)` for a one-character separator. -/
def splitChar (sep : Char) : List Char → List (List Char)
  | [] => [[]]
  | c :: rest =>
    let r := splitChar sep rest
    if c = sep then [] :: r
    else
      match r with
      | [] => [[c]]
      | h :: t => (c :: h) :: t

/-- Python's `str.strip()` (ASCII whitespace). -/
def stripChars (l : List Char) : List Char :=
  ((l.dropWhile isSpaceChar).reverse.dropWhile isSpaceChar).reverse

/-- The lines of a file's text, `content.split('\n')`. -/
def linesOf (content : String) : List (List Char) :=
  splitChar '\n' content.data

/-! ## Data model -/

/-- A source file of the scanned tree: its (relative) path and its text;
`content = none` models a file whose read raises
`UnicodeDecodeError`/`IOError`. -/
structure SFile where
  path : String
  content : Option String
deriving DecidableEq, Repr

/-- One occurrence record, the dict appended to a result category.
`line = none` models a dict without a `"line"` key (the direct-import
records); `item.get("line", 0)` then yields `0`. -/
structure Occ where
  file : String
  line : Option Nat
  content : String
deriving DecidableEq, Repr

/-- The deduplication key `(item["file"], item.get("line", 0))`. -/
def occKey (o : Occ) : String × Nat :=
  (o.file, o.line.getD 0)

/-- The `self.results` dictionary: the eight usage categories. -/
structure ScanResult where
  direct_imports : List Occ
  serializer_class_declarations : List Occ
  field_usages : List Occ
  serializer_inheritance : List Occ
  direct_instantiations : List Occ
  many_true_usages : List Occ
  inner_class_usages : List Occ
  meta_class_references : List Occ
deriving DecidableEq, Repr

/-! ## The patterns, transliterated from the Python source -/

/-- `_parse_serializer_path`: split the dotted path on `.`; fewer than 3
parts raises `ValueError`; more than 3 parts yields
`(parts[0], parts[-2], parts[-1])`; exactly 3 parts yields
`(parts[0], parts[1], parts[2])`. -/
def parseSerializerPath (path : String) : Except String (String × String × String) :=
  let parts := (splitChar '.' path.data).map fun l => String.mk l
  if parts.length < 3 then
    .error "Serializer path must be in format app.file_name.serializer_name or app.path.to.file_name.serializer_name"
  else if parts.length > 3 then
    .ok (parts.headD "", parts.getD (parts.length - 2) "", parts.getLastD "")
  else
    .ok (parts.getD 0 "", parts.getD 1 "", parts.getD 2 "")

/-- The six patterns of `_scan_for_direct_imports`. -/
def importPats (app file name : String) : List Regex :=
  [ -- from\s+{app}\.{file}\s+import\s+.*{name}
    .seq (.lits "from") (.seq (.plusG .space) (.seq (.lits app) (.seq (.cls (.lit '.'))
      (.seq (.lits file) (.seq (.plusG .space) (.seq (.lits "import")
      (.seq (.plusG .space) (.seq (.starG .dot) (.lits name))))))))),
    -- from\s+{app}\.{file}\s+import\s+\(.*{name}.*\)
    .seq (.lits "from") (.seq (.plusG .space) (.seq (.lits app) (.seq (.cls (.lit '.'))
      (.seq (.lits file) (.seq (.plusG .space) (.seq (.lits "import")
      (.seq (.plusG .space) (.seq (.cls (.lit '(')) (.seq (.starG .dot)
      (.seq (.lits name) (.seq (.starG .dot) (.cls (.lit ')'))))))))))))),
    -- from\s+{app}\.serializers\s+import\s+.*{name}
    .seq (.lits "from") (.seq (.plusG .space) (.seq (.lits app) (.seq (.cls (.lit '.'))
      (.seq (.lits "serializers") (.seq (.plusG .space) (.seq (.lits "import")
      (.seq (.plusG .space) (.seq (.starG .dot) (.lits name))))))))),
    -- from\s+{app}\.serializers\s+import\s+\(.*{name}.*\)
    .seq (.lits "from") (.seq (.plusG .space) (.seq (.lits app) (.seq (.cls (.lit '.'))
      (.seq (.lits "serializers") (.seq (.plusG .space) (.seq (.lits "import")
      (.seq (.plusG .space) (.seq (.cls (.lit '(')) (.seq (.starG .dot)
      (.seq (.lits name) (.seq (.starG .dot) (.cls (.lit ')'))))))))))))),
    -- from\s+{app}\.rest\.serializers\.{file}\s+import\s+.*{name}
    .seq (.lits "from") (.seq (.plusG .space) (.seq (.lits app) (.seq (.cls (.lit '.'))
      (.seq (.lits "rest") (.seq (.cls (.lit '.')) (.seq (.lits "serializers")
      (.seq (.cls (.lit '.')) (.seq (.lits file) (.seq (.plusG .space)
      (.seq (.lits "import") (.seq (.plusG .space) (.seq (.starG .dot) (.lits name))))))))))))),
    -- from\s+{app}\.rest\.serializers\s+import\s+.*{name}
    .seq (.lits "from") (.seq (.plusG .space) (.seq (.lits app) (.seq (.cls (.lit '.'))
      (.seq (.lits "rest") (.seq (.cls (.lit '.')) (.seq (.lits "serializers")
      (.seq (.plusG .space) (.seq (.lits "import")
      (.seq (.plusG .space) (.seq (.starG .dot) (.lits name)))))))))))]

/-- The six per-line patterns of `_scan_for_serializer_class_declarations`. -/
def serializerClassPats (name : String) : List Regex :=
  [ -- serializer_class\s*=\s*{name}
    .seq (.lits "serializer_class") (.seq (.starG .space) (.seq (.cls (.lit '='))
      (.seq (.starG .space) (.lits name)))),
    -- serializer_class\s*=\s*{name}\.[A-Za-z]+
    .seq (.lits "serializer_class") (.seq (.starG .space) (.seq (.cls (.lit '='))
      (.seq (.starG .space) (.seq (.lits name) (.seq (.cls (.lit '.')) (.plusG .alpha)))))),
    -- (?:return|yield)\s+{name}
    .seq (.alt (.lits "return") (.lits "yield")) (.seq (.plusG .space) (.lits name)),
    -- serializer\s*=\s*{name}
    .seq (.lits "serializer") (.seq (.starG .space) (.seq (.cls (.lit '='))
      (.seq (.starG .space) (.lits name)))),
    -- ['\"]{name}['\"]
    .seq (.cls .quote) (.seq (.lits name) (.cls .quote)),
    -- :\s*{name}
    .seq (.cls (.lit ':')) (.seq (.starG .space) (.lits name))]

/-- The two patterns of `_scan_for_field_usages`. -/
def fieldPats (name : String) : List Regex :=
  [ -- \w+\s*=\s*{name}\(
    .seq (.plusG .word) (.seq (.starG .space) (.seq (.cls (.lit '='))
      (.seq (.starG .space) (.seq (.lits name) (.cls (.lit '(')))))),
    -- \w+\s*=\s*{name}\.\w+\(
    .seq (.plusG .word) (.seq (.starG .space) (.seq (.cls (.lit '='))
      (.seq (.starG .space) (.seq (.lits name) (.seq (.cls (.lit '.'))
      (.seq (.plusG .word) (.cls (.lit '('))))))))]

/-- The pattern of `_scan_for_serializer_inheritance`:
`class\s+\w+\({name}.*\):`. -/
def inheritancePat (name : String) : Regex :=
  .seq (.lits "class") (.seq (.plusG .space) (.seq (.plusG .word) (.seq (.cls (.lit '('))
    (.seq (.lits name) (.seq (.starG .dot) (.lits "):"))))))

/-- The two patterns of `_scan_for_direct_instantiations`. -/
def instPats (name : String) : List Regex :=
  [ -- {name}\(
    .seq (.lits name) (.cls (.lit '(')),
    -- {name}\.\w+\(
    .seq (.lits name) (.seq (.cls (.lit '.')) (.seq (.plusG .word) (.cls (.lit '('))))]

/-- The two patterns of `_scan_for_many_true_usages`. -/
def manyTruePats (name : String) : List Regex :=
  [ -- {name}\(.*many=True
    .seq (.lits name) (.seq (.cls (.lit '(')) (.seq (.starG .dot) (.lits "many=True"))),
    -- {name}\.\w+\(.*many=True
    .seq (.lits name) (.seq (.cls (.lit '.')) (.seq (.plusG .word) (.seq (.cls (.lit '('))
      (.seq (.starG .dot) (.lits "many=True")))))]

/-- The pattern of `_scan_for_inner_class_usages`: `{name}\.[A-Za-z]+`. -/
def innerPat (name : String) : Regex :=
  .seq (.lits name) (.seq (.cls (.lit '.')) (.plusG .alpha))

/-- The pattern of `_scan_for_meta_class_references`: `{name}\.Meta`. -/
def metaPat (name : String) : Regex :=
  .seq (.lits name) (.seq (.cls (.lit '.')) (.lits "Meta"))

/-- Head of the multi-line `get_serializer` pattern:
`def\s+get_serializer(?:_class)?\s*\([^)]*\):\s*`. -/
def gsHead : Regex :=
  .seq (.lits "def") (.seq (.plusG .space) (.seq (.lits "get_serializer")
    (.seq (.opt (.lits "_class")) (.seq (.starG .space) (.seq (.cls (.lit '('))
    (.seq (.starG .notRParen) (.seq (.lits "):") (.starG .space))))))))

/-- One repeated body line of the `get_serializer` pattern: `(?:\n[^\n]*)`. -/
def gsBodyLine : Regex :=
  .seq (.cls (.lit '\n')) (.starG .notNL)

/-- Tail of the `get_serializer` pattern: `\n[ \t]+(?:return|yield)\s+`. -/
def gsTail : Regex :=
  .seq (.cls (.lit '\n')) (.seq (.plusG .spaceTab)
    (.seq (.alt (.lits "return") (.lits "yield")) (.plusG .space)))

/-- Capture group of the `get_serializer` pattern: `([^()\n]*)`. -/
def gsGroup : Regex :=
  .grp (.starG .notParenNL)

/-- Matcher for the whole `get_serializer` pattern
`def\s+get_serializer(?:_class)?\s*\([^)]*\):\s*(?:\n[^\n]*){0,20}?\n[ \t]+(?:return|yield)\s+([^()\n]*)`,
with the bounded lazy repetition spliced between head and tail. -/
def gsMatchM (s : List Char) (p : Nat) : List MRes :=
  (gsHead.matchM s p).flatMap fun r1 =>
    (matchRepLazy gsBodyLine 20 r1.rest r1.pos).flatMap fun r2 =>
      (gsTail.matchM r2.rest r2.pos).flatMap fun r3 =>
        (gsGroup.matchM r3.rest r3.pos).map fun r4 =>
          ⟨r4.rest, r4.pos, mergeGrp (mergeGrp (mergeGrp r1.grp r2.grp) r3.grp) r4.grp⟩

/-- The pattern of `_find_potential_parent_serializers`:
`class\s+(\w+Serializer).*?class\s+{name}` with `re.DOTALL`. -/
def parentPat (name : String) : Regex :=
  .seq (.lits "class") (.seq (.plusG .space)
    (.seq (.grp (.seq (.plusG .word) (.lits "Serializer")))
    (.seq (.starL .dotAll) (.seq (.lits "class") (.seq (.plusG .space) (.lits name))))))

/-- The per-parent pattern of `_scan_for_parent_serializer_usages`:
`{parent}\.{name}`. -/
def parentUsePat (parent name : String) : Regex :=
  .seq (.lits parent) (.seq (.cls (.lit '.')) (.lits name))

/-! ## The detection passes -/

/-- The common per-line loop: `line_num` starts at 1; for each pattern that
`re.search`es the line, one record `{file, line, content: line.strip()}` is
appended. -/
def scanLinesGo (pats : List Regex) (path : String) : Nat → List (List Char) → List Occ
  | _, [] => []
  | i, line :: rest =>
    ((pats.filter fun r => r.search line).map fun _ =>
      (⟨path, some i, String.mk (stripChars line)⟩ : Occ))
      ++ scanLinesGo pats path (i + 1) rest

/-- Run a per-file scan over the whole tree; a file whose read fails
(`content = none`) is skipped (`except ...: continue`). -/
def scanTree (perFile : String → String → List Occ) (tree : List SFile) : List Occ :=
  tree.flatMap fun f =>
    match f.content with
    | none => []
    | some c => perFile f.path c

/-- `_scan_for_direct_imports` on one file: `re.findall` per pattern on the
whole text; a nonempty result appends `{file, import_stmt: matches[0]}` —
a record without a line number. -/
def scanImportsFile (app file name : String) (path content : String) : List Occ :=
  (importPats app file name).filterMap fun r =>
    match r.findIter content.data with
    | [] => none
    | (st, res) :: _ =>
      some ⟨path, none, String.mk ((content.data.drop st).take (res.pos - st))⟩

def scanDirectImports (app file name : String) (tree : List SFile) : List Occ :=
  scanTree (scanImportsFile app file name) tree

/-- The `re.finditer(get_serializer_pattern, content)` loop of
`_scan_for_serializer_class_declarations`: for each match whose group 1
(`method_body`) contains the serializer name, append a record at the line of
the captured position (`content[:start_pos].count('\n') + 1`). -/
def scanGetSerializerFile (name : String) (path content : String) : List Occ :=
  (findIterAux gsMatchM content.data (content.data.length + 1) 0).filterMap fun m =>
    match m.2.grp with
    | none => none
    | some (gs, ge) =>
      let body := (content.data.drop gs).take (ge - gs)
      if subStr name.data body then
        some ⟨path, some (((content.data.take gs).countP fun c => c = '\n') + 1),
          "Dynamic selection in get_serializer_class: " ++ String.mk (stripChars body)⟩
      else none

/-- `_scan_for_serializer_class_declarations` on one file: the per-line
patterns first, then the multi-line `get_serializer` matches. -/
def scanSerializerClassFile (name : String) (path content : String) : List Occ :=
  scanLinesGo (serializerClassPats name) path 1 (linesOf content)
    ++ scanGetSerializerFile name path content

def scanSerializerClassDecls (name : String) (tree : List SFile) : List Occ :=
  scanTree (scanSerializerClassFile name) tree

def scanFieldUsages (name : String) (tree : List SFile) : List Occ :=
  scanTree (fun p c => scanLinesGo (fieldPats name) p 1 (linesOf c)) tree

def scanInheritance (name : String) (tree : List SFile) : List Occ :=
  scanTree (fun p c => scanLinesGo [inheritancePat name] p 1 (linesOf c)) tree

def scanManyTrue (name : String) (tree : List SFile) : List Occ :=
  scanTree (fun p c => scanLinesGo (manyTruePats name) p 1 (linesOf c)) tree

/-- Per-line loop of `_scan_for_inner_class_usages`: record only when the
pattern matches and the line does not contain `serializer_class`. -/
def scanInnerGo (name : String) (path : String) : Nat → List (List Char) → List Occ
  | _, [] => []
  | i, line :: rest =>
    (if (innerPat name).search line && !subStr "serializer_class".data line then
      [(⟨path, some i, String.mk (stripChars line)⟩ : Occ)] else [])
      ++ scanInnerGo name path (i + 1) rest

def scanInnerUsages (name : String) (tree : List SFile) : List Occ :=
  scanTree (fun p c => scanInnerGo name p 1 (linesOf c)) tree

def scanMetaRefs (name : String) (tree : List SFile) : List Occ :=
  scanTree (fun p c => scanLinesGo [metaPat name] p 1 (linesOf c)) tree

/-- State of `_scan_for_direct_instantiations`: the category list so far and
the session-wide `seen_results` set of `(file, line, stripped text)` keys. -/
abbrev InstState := List Occ × List (String × Nat × String)

/-- One pattern on one line of `_scan_for_direct_instantiations`: record
only if it matches and the line contains neither `class` nor `=`, and the
`(file, line, text)` key was not seen before. -/
def instPatStep (path : String) (i : Nat) (line : List Char) (st : InstState)
    (r : Regex) : InstState :=
  if r.search line && !subStr "class".data line && !subStr "=".data line then
    if (path, i, String.mk (stripChars line)) ∈ st.2 then st
    else (st.1 ++ [⟨path, some i, String.mk (stripChars line)⟩],
          (path, i, String.mk (stripChars line)) :: st.2)
  else st

/-- The `for pattern in patterns` loop on one line. -/
def instLineStep (pats : List Regex) (path : String) (i : Nat) (line : List Char)
    (st : InstState) : InstState :=
  pats.foldl (instPatStep path i line) st

def instLinesGo (pats : List Regex) (path : String) :
    Nat → List (List Char) → InstState → InstState
  | _, [], st => st
  | i, line :: rest, st =>
    instLinesGo pats path (i + 1) rest (instLineStep pats path i line st)

/-- One file of `_scan_for_direct_instantiations`; an unreadable file is
skipped with the state unchanged. -/
def instFileStep (name : String) (st : InstState) (f : SFile) : InstState :=
  match f.content with
  | none => st
  | some c => instLinesGo (instPats name) f.path 1 (linesOf c) st

def scanDirectInstantiations (name : String) (tree : List SFile) : List Occ :=
  (tree.foldl (instFileStep name) ([], [])).1

/-- `_find_potential_parent_serializers`: collect group 1 of every
`re.finditer` match of the parent pattern over every readable file. -/
def findPotentialParents (name : String) (tree : List SFile) : List String :=
  tree.flatMap fun f =>
    match f.content with
    | none => []
    | some c =>
      ((parentPat name).findIter c.data).filterMap fun m =>
        m.2.grp.map fun g => String.mk ((c.data.drop g.1).take (g.2 - g.1))

/-- Per-line loop of `_scan_for_parent_serializer_usages`: the record's
content is prefixed with `Used through parent: `. -/
def scanParentGo (parent name : String) (path : String) : Nat → List (List Char) → List Occ
  | _, [] => []
  | i, line :: rest =>
    (if (parentUsePat parent name).search line then
      [(⟨path, some i, "Used through parent: " ++ String.mk (stripChars line)⟩ : Occ)]
     else [])
      ++ scanParentGo parent name path (i + 1) rest

/-- `_scan_for_parent_serializer_usages`: for each potential parent, scan the
whole tree; results land in the `serializer_class_declarations` category. -/
def scanParentUsages (name : String) (tree : List SFile) : List Occ :=
  (findPotentialParents name tree).flatMap fun parent =>
    scanTree (fun p c => scanParentGo parent name p 1 (linesOf c)) tree

/-! ## Deduplication and the full scan -/

/-- `_deduplicate_results` on one category: keep the first record per
`(file, line)` key, in original order. -/
def dedupAux : List Occ → List (String × Nat) → List Occ
  | [], _ => []
  | o :: rest, seen =>
    if occKey o ∈ seen then dedupAux rest seen
    else o :: dedupAux rest (occKey o :: seen)

def dedupCategory (l : List Occ) : List Occ :=
  dedupAux l []

def dedupResults (r : ScanResult) : ScanResult where
  direct_imports := dedupCategory r.direct_imports
  serializer_class_declarations := dedupCategory r.serializer_class_declarations
  field_usages := dedupCategory r.field_usages
  serializer_inheritance := dedupCategory r.serializer_inheritance
  direct_instantiations := dedupCategory r.direct_instantiations
  many_true_usages := dedupCategory r.many_true_usages
  inner_class_usages := dedupCategory r.inner_class_usages
  meta_class_references := dedupCategory r.meta_class_references

/-- `SerializerUsageAnalyzer.analyze`: run the eight passes (the parent pass
appends into `serializer_class_declarations` last), then deduplicate. -/
def analyze (app file name : String) (tree : List SFile) : ScanResult :=
  dedupResults
    { direct_imports := scanDirectImports app file name tree
      serializer_class_declarations :=
        scanSerializerClassDecls name tree ++ scanParentUsages name tree
      field_usages := scanFieldUsages name tree
      serializer_inheritance := scanInheritance name tree
      direct_instantiations := scanDirectInstantiations name tree
      many_true_usages := scanManyTrue name tree
      inner_class_usages := scanInnerUsages name tree
      meta_class_references := scanMetaRefs name tree }

/-! ## The batch command (`find_unused_serializers.py`) -/

/-- A candidate discovered by `SerializerFinder` (name, dotted path, file). -/
structure Candidate where
  name : String
  path : String
  file : String
deriving DecidableEq, Repr

/-- One entry of the batch report. -/
structure CandResult where
  cand : Candidate
  total : Nat
  details : ScanResult
deriving DecidableEq, Repr

/-- `total_usages`: the sum of the occurrence counts of the eight
categories. -/
def totalUsages (r : ScanResult) : Nat :=
  r.direct_imports.length + r.serializer_class_declarations.length
    + r.field_usages.length + r.serializer_inheritance.length
    + r.direct_instantiations.length + r.many_true_usages.length
    + r.inner_class_usages.length + r.meta_class_references.length

/-- One iteration of the batch loop: constructing the analyzer parses the
dotted path (a `ValueError` there is caught by the `except` clause and the
candidate is skipped), then the scan runs and the totals are summed. -/
def candScan (tree : List SFile) (c : Candidate) : Option CandResult :=
  match parseSerializerPath c.path with
  | .error _ => none
  | .ok (app, file, sname) =>
    let r := analyze app file sname tree
    some ⟨c, totalUsages r, r⟩

/-- The unused list before sorting: candidates in enumeration order whose
scan completed with `total_usages <= threshold`. -/
def unusedCandidates (threshold : Int) (cands : List Candidate) (tree : List SFile) :
    List CandResult :=
  cands.filterMap fun c =>
    (candScan tree c).bind fun r =>
      if (r.total : Int) ≤ threshold then some r else none

/-- `Command.handle` of `find_unused_serializers`: the unused list sorted
ascending by `total_usages` (`list.sort` is a stable sort). -/
def findUnused (threshold : Int) (cands : List Candidate) (tree : List SFile) :
    List CandResult :=
  (unusedCandidates threshold cands tree).mergeSort fun a b => decide (a.total ≤ b.total)

/-! ## Lemmas about deduplication -/

theorem dedupAux_sublist : ∀ (l : List Occ) (seen : List (String × Nat)),
    List.Sublist (dedupAux l seen) l
  | [], _ => List.Sublist.refl _
  | o :: rest, seen => by
    unfold dedupAux
    by_cases h : occKey o ∈ seen
    · simp only [h, if_pos]
      exact (dedupAux_sublist rest seen).cons o
    · simp only [h, if_neg, not_false_iff]
      exact (dedupAux_sublist rest (occKey o :: seen)).cons₂ o

theorem mem_dedupAux_key_not_seen : ∀ (l : List Occ) (seen : List (String × Nat)) (o : Occ),
    o ∈ dedupAux l seen → occKey o ∉ seen
  | [], _, _, h => by simp [dedupAux] at h
  | x :: rest, seen, o, h => by
    unfold dedupAux at h
    by_cases hx : occKey x ∈ seen
    · simp only [hx, if_pos] at h
      exact mem_dedupAux_key_not_seen rest seen o h
    · simp only [hx, if_neg, not_false_iff, List.mem_cons] at h
      rcases h with rfl | h
      · exact hx
      · have := mem_dedupAux_key_not_seen rest (occKey x :: seen) o h
        intro hs
        exact this (List.mem_cons_of_mem _ hs)

theorem dedupAux_find : ∀ (l : List Occ) (seen : List (String × Nat)) (o : Occ),
    o ∈ dedupAux l seen →
    l.find? (fun x => decide (occKey x = occKey o)) = some o
  | [], _, _, h => by simp [dedupAux] at h
  | x :: rest, seen, o, h => by
    unfold dedupAux at h
    by_cases hx : occKey x ∈ seen
    · simp only [hx, if_pos] at h
      have hne : occKey x ≠ occKey o := by
        intro he
        exact mem_dedupAux_key_not_seen rest seen o h (he ▸ hx)
      rw [List.find?_cons_of_neg _ (by simpa using hne)]
      exact dedupAux_find rest seen o h
    · simp only [hx, if_neg, not_false_iff, List.mem_cons] at h
      rcases h with rfl | h
      · exact List.find?_cons_of_pos _ (by simp)
      · have hno := mem_dedupAux_key_not_seen rest (occKey x :: seen) o h
        have hne : occKey x ≠ occKey o := fun he => hno (he ▸ List.mem_cons_self _ _)
        rw [List.find?_cons_of_neg _ (by simpa using hne)]
        exact dedupAux_find rest (occKey x :: seen) o h

theorem dedupAux_countP_seen : ∀ (l : List Occ) (seen : List (String × Nat))
    (k : String × Nat), k ∈ seen →
    (dedupAux l seen).countP (fun o => decide (occKey o = k)) = 0
  | [], _, _, _ => by simp [dedupAux]
  | x :: rest, seen, k, hk => by
    unfold dedupAux
    by_cases hx : occKey x ∈ seen
    · simp only [hx, if_pos]
      exact dedupAux_countP_seen rest seen k hk
    · simp only [hx, if_neg, not_false_iff, List.countP_cons]
      have hne : ¬(occKey x = k) := fun he => hx (he ▸ hk)
      have hr := dedupAux_countP_seen rest (occKey x :: seen) k (List.mem_cons_of_mem _ hk)
      simp [hne, hr]

theorem dedupAux_countP : ∀ (l : List Occ) (seen : List (String × Nat))
    (k : String × Nat), k ∉ seen →
    (dedupAux l seen).countP (fun o => decide (occKey o = k))
      = min 1 (l.countP fun o => decide (occKey o = k))
  | [], _, _, _ => by simp [dedupAux]
  | x :: rest, seen, k, hk => by
    unfold dedupAux
    by_cases hx : occKey x ∈ seen
    · have hne : ¬(occKey x = k) := fun he => hk (he ▸ hx)
      have hr := dedupAux_countP rest seen k hk
      simp only [hx, if_pos, List.countP_cons]
      simp [hne, hr]
    · simp only [hx, if_neg, not_false_iff, List.countP_cons]
      by_cases he : occKey x = k
      · have h0 := dedupAux_countP_seen rest (occKey x :: seen) k
          (by rw [he]; exact List.mem_cons_self _ _)
        rw [h0]
        simp [he, Nat.min_def]
      · have hr := dedupAux_countP rest (occKey x :: seen) k (by
          intro hkk
          rcases List.mem_cons.mp hkk with h1 | h2
          · exact he h1.symm
          · exact hk h2)
        simp [he, hr]

theorem dedupCategory_sublist (l : List Occ) : List.Sublist (dedupCategory l) l :=
  dedupAux_sublist l []

theorem dedupCategory_find (l : List Occ) (o : Occ) (h : o ∈ dedupCategory l) :
    l.find? (fun x => decide (occKey x = occKey o)) = some o :=
  dedupAux_find l [] o h

theorem dedupCategory_countP (l : List Occ) (k : String × Nat) :
    (dedupCategory l).countP (fun o => decide (occKey o = k))
      = min 1 (l.countP fun o => decide (occKey o = k)) :=
  dedupAux_countP l [] k (by simp)

/-! ## Lemmas about the per-line passes -/

theorem mem_scanLinesGo : ∀ (pats : List Regex) (path : String) (i : Nat)
    (ls : List (List Char)) (o : Occ), o ∈ scanLinesGo pats path i ls →
    o.file = path ∧ ∃ k, i ≤ k ∧ o.line = some k
  | _, _, _, [], _, h => by simp [scanLinesGo] at h
  | pats, path, i, line :: rest, o, h => by
    unfold scanLinesGo at h
    rcases List.mem_append.mp h with h1 | h2
    · rcases List.mem_map.mp h1 with ⟨r, _, rfl⟩
      exact ⟨rfl, i, Nat.le_refl i, rfl⟩
    · obtain ⟨hf, k, hk, hl⟩ := mem_scanLinesGo pats path (i + 1) rest o h2
      exact ⟨hf, k, by omega, hl⟩

theorem scanLinesGo_countP : ∀ (pats : List Regex) (path : String) (i j : Nat)
    (ls : List (List Char)) (L : List Char), ls[j]? = some L →
    (scanLinesGo pats path i ls).countP (fun o => decide (occKey o = (path, i + j)))
      = (pats.filter fun r => r.search L).length
  | pats, path, i, j, [], L, h => by simp at h
  | pats, path, i, 0, line :: rest, L, h => by
    simp only [List.getElem?_cons_zero, Option.some.injEq] at h
    subst h
    unfold scanLinesGo
    rw [List.countP_append]
    have h1 : ((pats.filter fun r => r.search line).map fun _ =>
        (⟨path, some i, String.mk (stripChars line)⟩ : Occ)).countP
          (fun o => decide (occKey o = (path, i + 0))) =
        (pats.filter fun r => r.search line).length := by
      rw [List.countP_eq_length_filter, List.filter_map, List.length_map]
      have heq : (List.filter ((fun o => decide (occKey o = (path, i + 0))) ∘ fun _ =>
          (⟨path, some i, String.mk (stripChars line)⟩ : Occ))
            (pats.filter fun r => r.search line))
          = pats.filter fun r => r.search line := by
        apply List.filter_eq_self.mpr
        intro a _
        simp [occKey]
      rw [heq]
    rw [h1]
    have h2 : (scanLinesGo pats path (i + 1) rest).countP
        (fun o => decide (occKey o = (path, i + 0))) = 0 := by
      rw [List.countP_eq_zero]
      intro o ho
      obtain ⟨_, k, hk, hl⟩ := mem_scanLinesGo pats path (i + 1) rest o ho
      simp only [occKey, hl, Option.getD_some, decide_eq_true_eq]
      intro he
      have : k = i + 0 := congrArg Prod.snd he
      omega
    rw [h2]
    omega
  | pats, path, i, j + 1, line :: rest, L, h => by
    simp only [List.getElem?_cons_succ] at h
    unfold scanLinesGo
    rw [List.countP_append]
    have h1 : ((pats.filter fun r => r.search line).map fun _ =>
        (⟨path, some i, String.mk (stripChars line)⟩ : Occ)).countP
          (fun o => decide (occKey o = (path, i + (j + 1)))) = 0 := by
      rw [List.countP_eq_zero]
      intro o ho
      rcases List.mem_map.mp ho with ⟨r, _, rfl⟩
      simp only [occKey, Option.getD_some, decide_eq_true_eq]
      intro he
      have : i = i + (j + 1) := congrArg Prod.snd he
      omega
    rw [h1]
    have h2 := scanLinesGo_countP pats path (i + 1) j rest L h
    have he : i + 1 + j = i + (j + 1) := by omega
    rw [he] at h2
    rw [h2]
    omega

/-! ## Lemmas about the matcher -/

theorem mergeGrp_none (g : Option (Nat × Nat)) : mergeGrp none g = g := rfl

theorem matchM_litsList : ∀ (cs s : List Char) (p : Nat),
    ((cs.foldr (fun c r => Regex.seq (.cls (.lit c)) r) .eps).matchM s p)
      = if isPrefixList cs s then [⟨s.drop cs.length, p + cs.length, none⟩] else []
  | [], s, p => by simp [Regex.matchM, isPrefixList]
  | c :: cs, [], p => by
    simp [Regex.matchM, isPrefixList]
  | c :: cs, d :: ds, p => by
    simp only [List.foldr_cons, Regex.matchM]
    by_cases hc : c = d
    · have hrun : (CClass.lit c).test d = true := by simp [CClass.test, hc]
      rw [hrun]
      simp only [if_true, List.flatMap_cons, List.flatMap_nil, List.append_nil]
      rw [matchM_litsList cs ds (p + 1)]
      by_cases hp : isPrefixList cs ds
      · have hpre : isPrefixList (c :: cs) (d :: ds) = true := by
          simp [isPrefixList, hc, hp]
        rw [hp]
        simp only [if_true, hpre, List.map_cons, List.map_nil, mergeGrp_none]
        have hlen : p + 1 + cs.length = p + (c :: cs).length := by
          simp [List.length_cons]; omega
        simp [hlen]
      · have hpre : isPrefixList (c :: cs) (d :: ds) = false := by
          simp only [isPrefixList]
          simp [hp]
        simp only [hp]
        simp [hpre]
    · have hrun : (CClass.lit c).test d = false := by simp [CClass.test, hc]
      have hpre : isPrefixList (c :: cs) (d :: ds) = false := by
        simp only [isPrefixList]
        simp [hc]
      rw [hrun]
      simp [hpre]

theorem matchM_lits (w : String) (s : List Char) (p : Nat) :
    (Regex.lits w).matchM s p
      = if isPrefixList w.data s then [⟨s.drop w.data.length, p + w.data.length, none⟩]
        else [] :=
  matchM_litsList w.data s p

theorem searchAux_isSome_mono (A B : List Char → Nat → List MRes)
    (h : ∀ s p, A s p ≠ [] → B s p ≠ []) :
    ∀ (s : List Char) (p : Nat), (searchAux A s p).isSome → (searchAux B s p).isSome
  | [], p, hs => by
    cases hA : A [] p with
    | nil => simp [searchAux, hA] at hs
    | cons r rs =>
      have hB : B [] p ≠ [] := h [] p (by simp [hA])
      cases hB2 : B [] p with
      | nil => exact absurd hB2 hB
      | cons r2 rs2 => simp [searchAux, hB2]
  | c :: t, p, hs => by
    cases hB : B (c :: t) p with
    | cons r2 rs2 => simp [searchAux, hB]
    | nil =>
      have hA : A (c :: t) p = [] := by
        by_contra hne
        exact h _ p hne hB
      simp only [searchAux, hA, hB] at hs ⊢
      exact searchAux_isSome_mono A B h t (p + 1) hs

theorem search_mono (A B : Regex)
    (h : ∀ s p, A.matchM s p ≠ [] → B.matchM s p ≠ []) (line : List Char)
    (hs : A.search line = true) : B.search line = true := by
  unfold Regex.search at hs ⊢
  exact searchAux_isSome_mono A.matchM B.matchM h line 0 hs

theorem matchM_seq_ne (a b : Regex) (s : List Char) (p : Nat) :
    (Regex.seq a b).matchM s p ≠ [] ↔ ∃ r ∈ a.matchM s p, b.matchM r.rest r.pos ≠ [] := by
  show (a.matchM s p).flatMap _ ≠ [] ↔ _
  rw [ne_eq, List.flatMap_eq_nil_iff]
  push_neg
  constructor
  · rintro ⟨r, hr, hne⟩
    exact ⟨r, hr, by simpa using hne⟩
  · rintro ⟨r, hr, hne⟩
    exact ⟨r, hr, by simpa using hne⟩

theorem matchM_cls_eq (k : CClass) (c : Char) (cs : List Char) (p : Nat) :
    (Regex.cls k).matchM (c :: cs) p
      = if k.test c then [⟨cs, p + 1, none⟩] else [] := rfl

theorem matchM_cls_nil (k : CClass) (p : Nat) : (Regex.cls k).matchM [] p = [] := rfl

theorem matchM_plusG_ne_of_test (k : CClass) (c : Char) (cs : List Char) (p : Nat)
    (h : k.test c = true) : (Regex.plusG k).matchM (c :: cs) p ≠ [] := by
  show (List.range (charRun k (c :: cs))).map _ ≠ []
  have hrun : charRun k (c :: cs) = charRun k cs + 1 := by simp [charRun, h]
  rw [hrun]
  simp [List.range_succ]

/-- A `{name}.Meta` match is in particular a `{name}\.[A-Za-z]+` match:
the first character of `Meta` is a letter. -/
theorem metaPat_matchM_inner (name : String) (s : List Char) (p : Nat)
    (h : (metaPat name).matchM s p ≠ []) : (innerPat name).matchM s p ≠ [] := by
  unfold metaPat at h
  unfold innerPat
  obtain ⟨r, hr, h2⟩ := (matchM_seq_ne _ _ _ _).mp h
  rw [matchM_lits] at hr
  by_cases hp : isPrefixList name.data s
  case neg => rw [if_neg hp] at hr; simp at hr
  rw [if_pos hp] at hr
  simp only [List.mem_singleton] at hr
  subst hr
  obtain ⟨r2, hr2, h3⟩ := (matchM_seq_ne _ _ _ _).mp h2
  rw [matchM_seq_ne]
  refine ⟨⟨s.drop name.data.length, p + name.data.length, none⟩, ?_, ?_⟩
  · rw [matchM_lits, if_pos hp]
    simp
  rw [matchM_seq_ne]
  refine ⟨r2, hr2, ?_⟩
  cases hrest : (⟨s.drop name.data.length, p + name.data.length, none⟩ : MRes).rest with
  | nil =>
    rw [hrest] at hr2
    rw [matchM_cls_nil] at hr2
    simp at hr2
  | cons c cs =>
    rw [hrest] at hr2
    rw [matchM_cls_eq] at hr2
    by_cases hdot : (CClass.lit '.').test c = true
    · rw [if_pos hdot] at hr2
      simp only [List.mem_singleton] at hr2
      subst hr2
      rw [matchM_lits] at h3
      by_cases hm : isPrefixList "Meta".data cs
      · cases hcs : cs with
        | nil => rw [hcs] at hm; simp [isPrefixList] at hm
        | cons m ms =>
          rw [hcs] at hm
          have hM : 'M' = m := by
            by_contra hne
            simp only [isPrefixList] at hm
            simp [hne] at hm
          apply matchM_plusG_ne_of_test
          rw [← hM]
          decide
      · rw [if_neg hm] at h3
        exact absurd rfl h3
    · rw [if_neg (by simpa using hdot)] at hr2
      simp at hr2

/-- Any line matched by the `Meta` pattern is matched by the
inner-class pattern. -/
theorem metaPat_search_inner (name : String) (L : List Char)
    (h : (metaPat name).search L = true) : (innerPat name).search L = true :=
  search_mono _ _ (metaPat_matchM_inner name) L h

/-! ## Lemmas about the tree traversal -/

theorem scanTree_singleton (f : String → String → List Occ) (p c : String) :
    scanTree f [⟨p, some c⟩] = f p c := by
  simp [scanTree]

theorem mem_scanTree (f : String → String → List Occ) (tree : List SFile) (o : Occ)
    (fl : SFile) (hfl : fl ∈ tree) (c : String) (hc : fl.content = some c)
    (ho : o ∈ f fl.path c) : o ∈ scanTree f tree := by
  unfold scanTree
  rw [List.mem_flatMap]
  exact ⟨fl, hfl, by rw [hc]; exact ho⟩

/-! ## Lemmas about the inner-class pass -/

theorem mem_scanInnerGo : ∀ (name path : String) (i : Nat)
    (ls : List (List Char)) (o : Occ), o ∈ scanInnerGo name path i ls →
    o.file = path ∧ ∃ k, i ≤ k ∧ o.line = some k
  | _, _, _, [], _, h => by simp [scanInnerGo] at h
  | name, path, i, line :: rest, o, h => by
    unfold scanInnerGo at h
    rcases List.mem_append.mp h with h1 | h2
    · by_cases hc : (innerPat name).search line && !subStr "serializer_class".data line
      · rw [if_pos hc] at h1
        simp only [List.mem_singleton] at h1
        subst h1
        exact ⟨rfl, i, Nat.le_refl i, rfl⟩
      · rw [if_neg hc] at h1
        simp at h1
    · obtain ⟨hf, k, hk, hl⟩ := mem_scanInnerGo name path (i + 1) rest o h2
      exact ⟨hf, k, by omega, hl⟩

theorem scanInnerGo_countP : ∀ (name path : String) (i j : Nat)
    (ls : List (List Char)) (L : List Char), ls[j]? = some L →
    (scanInnerGo name path i ls).countP (fun o => decide (occKey o = (path, i + j)))
      = if (innerPat name).search L && !subStr "serializer_class".data L then 1 else 0
  | name, path, i, j, [], L, h => by simp at h
  | name, path, i, 0, line :: rest, L, h => by
    simp only [List.getElem?_cons_zero, Option.some.injEq] at h
    subst h
    unfold scanInnerGo
    rw [List.countP_append]
    have h2 : (scanInnerGo name path (i + 1) rest).countP
        (fun o => decide (occKey o = (path, i + 0))) = 0 := by
      rw [List.countP_eq_zero]
      intro o ho
      obtain ⟨_, k, hk, hl⟩ := mem_scanInnerGo name path (i + 1) rest o ho
      simp only [occKey, hl, Option.getD_some, decide_eq_true_eq]
      intro he
      have : k = i + 0 := congrArg Prod.snd he
      omega
    rw [h2, Nat.add_zero]
    by_cases hc : (innerPat name).search line && !subStr "serializer_class".data line
    · rw [if_pos hc, if_pos hc]
      simp [occKey]
    · rw [if_neg hc, if_neg hc]
      simp
  | name, path, i, j + 1, line :: rest, L, h => by
    simp only [List.getElem?_cons_succ] at h
    unfold scanInnerGo
    rw [List.countP_append]
    have h1 : (if (innerPat name).search line && !subStr "serializer_class".data line then
        [(⟨path, some i, String.mk (stripChars line)⟩ : Occ)] else []).countP
          (fun o => decide (occKey o = (path, i + (j + 1)))) = 0 := by
      rw [List.countP_eq_zero]
      intro o ho
      by_cases hc : (innerPat name).search line && !subStr "serializer_class".data line
      · rw [if_pos hc] at ho
        simp only [List.mem_singleton] at ho
        subst ho
        simp only [occKey, Option.getD_some, decide_eq_true_eq]
        intro he
        have : i = i + (j + 1) := congrArg Prod.snd he
        omega
      · rw [if_neg hc] at ho
        simp at ho
    rw [h1]
    have h2 := scanInnerGo_countP name path (i + 1) j rest L h
    have he : i + 1 + j = i + (j + 1) := by omega
    rw [he] at h2
    rw [h2]
    omega

/-! ## Lemmas about the direct-instantiation pass -/

theorem instLineStep_mem : ∀ (pats : List Regex) (path : String) (i : Nat)
    (line : List Char) (st : InstState) (o : Occ),
    o ∈ (instLineStep pats path i line st).1 →
    o ∈ st.1 ∨ (o = ⟨path, some i, String.mk (stripChars line)⟩
      ∧ subStr "class".data line = false ∧ subStr "=".data line = false)
  | [], _, _, _, _, _, h => Or.inl h
  | r :: pats, path, i, line, st, o, h => by
    have hstep : instLineStep (r :: pats) path i line st
        = instLineStep pats path i line (instPatStep path i line st r) := by
      simp [instLineStep]
    rw [hstep] at h
    rcases instLineStep_mem pats path i line (instPatStep path i line st r) o h with h1 | h2
    · unfold instPatStep at h1
      by_cases hc : (r.search line && !subStr "class".data line
          && !subStr "=".data line) = true
      · rw [if_pos hc] at h1
        by_cases hk : (path, i, String.mk (stripChars line)) ∈ st.2
        · rw [if_pos hk] at h1
          exact Or.inl h1
        · rw [if_neg hk] at h1
          rcases List.mem_append.mp h1 with h3 | h4
          · exact Or.inl h3
          · simp only [List.mem_singleton] at h4
            refine Or.inr ⟨h4, ?_, ?_⟩
            · have := (Bool.and_eq_true _ _).mp hc
              have h5 := (Bool.and_eq_true _ _).mp this.1
              simpa using h5.2
            · have := (Bool.and_eq_true _ _).mp hc
              simpa using this.2
      · rw [if_neg hc] at h1
        exact Or.inl h1
    · exact Or.inr h2

theorem instLinesGo_mem : ∀ (pats : List Regex) (path : String) (i : Nat)
    (ls : List (List Char)) (st : InstState) (o : Occ),
    o ∈ (instLinesGo pats path i ls st).1 →
    o ∈ st.1 ∨ ∃ j L, ls[j]? = some L
      ∧ o = ⟨path, some (i + j), String.mk (stripChars L)⟩
      ∧ subStr "class".data L = false ∧ subStr "=".data L = false
  | _, _, _, [], _, _, h => Or.inl h
  | pats, path, i, line :: rest, st, o, h => by
    unfold instLinesGo at h
    rcases instLinesGo_mem pats path (i + 1) rest (instLineStep pats path i line st) o h
      with h1 | h2
    · rcases instLineStep_mem pats path i line st o h1 with h3 | h4
      · exact Or.inl h3
      · refine Or.inr ⟨0, line, by simp, ?_, h4.2.1, h4.2.2⟩
        rw [h4.1]
        simp
    · obtain ⟨j, L, hjL, ho, hc1, hc2⟩ := h2
      refine Or.inr ⟨j + 1, L, by simpa using hjL, ?_, hc1, hc2⟩
      rw [ho]
      have : i + 1 + j = i + (j + 1) := by omega
      rw [this]

theorem instTreeFold_mem : ∀ (name : String) (tree : List SFile) (st : InstState)
    (o : Occ), o ∈ (tree.foldl (instFileStep name) st).1 →
    o ∈ st.1 ∨ ∃ f ∈ tree, ∃ c, f.content = some c ∧ ∃ j L, (linesOf c)[j]? = some L
      ∧ o = ⟨f.path, some (1 + j), String.mk (stripChars L)⟩
      ∧ subStr "class".data L = false ∧ subStr "=".data L = false
  | _, [], _, _, h => Or.inl h
  | name, f :: tree, st, o, h => by
    rw [List.foldl_cons] at h
    rcases instTreeFold_mem name tree (instFileStep name st f) o h with h1 | h2
    · unfold instFileStep at h1
      cases hc : f.content with
      | none => rw [hc] at h1; exact Or.inl h1
      | some c =>
        rw [hc] at h1
        rcases instLinesGo_mem (instPats name) f.path 1 (linesOf c) st o h1 with h3 | h4
        · exact Or.inl h3
        · obtain ⟨j, L, hjL, ho, hc1, hc2⟩ := h4
          exact Or.inr ⟨f, List.mem_cons_self _ _, c, hc, j, L, hjL, ho, hc1, hc2⟩
    · obtain ⟨g, hg, rest⟩ := h2
      exact Or.inr ⟨g, List.mem_cons_of_mem _ hg, rest⟩

theorem mem_scanDirectInstantiations (name : String) (tree : List SFile) (o : Occ)
    (h : o ∈ scanDirectInstantiations name tree) :
    ∃ f ∈ tree, ∃ c, f.content = some c ∧ ∃ j L, (linesOf c)[j]? = some L
      ∧ o = ⟨f.path, some (1 + j), String.mk (stripChars L)⟩
      ∧ subStr "class".data L = false ∧ subStr "=".data L = false := by
  rcases instTreeFold_mem name tree ([], []) o h with h1 | h2
  · simp at h1
  · exact h2

/-! ## Skipping an unreadable file -/

theorem scanTree_skip (f : String → String → List Occ) (p : String)
    (t₁ t₂ : List SFile) :
    scanTree f (t₁ ++ ⟨p, none⟩ :: t₂) = scanTree f (t₁ ++ t₂) := by
  simp [scanTree, List.flatMap_append]

theorem findPotentialParents_skip (name p : String) (t₁ t₂ : List SFile) :
    findPotentialParents name (t₁ ++ ⟨p, none⟩ :: t₂)
      = findPotentialParents name (t₁ ++ t₂) := by
  simp [findPotentialParents, List.flatMap_append]

theorem scanDirectInstantiations_skip (name p : String) (t₁ t₂ : List SFile) :
    scanDirectInstantiations name (t₁ ++ ⟨p, none⟩ :: t₂)
      = scanDirectInstantiations name (t₁ ++ t₂) := by
  unfold scanDirectInstantiations
  rw [List.foldl_append, List.foldl_append, List.foldl_cons]
  rfl

theorem scanParentUsages_skip (name p : String) (t₁ t₂ : List SFile) :
    scanParentUsages name (t₁ ++ ⟨p, none⟩ :: t₂)
      = scanParentUsages name (t₁ ++ t₂) := by
  unfold scanParentUsages
  rw [findPotentialParents_skip]
  simp only [scanTree_skip]

theorem analyze_skip (app file name p : String) (t₁ t₂ : List SFile) :
    analyze app file name (t₁ ++ ⟨p, none⟩ :: t₂) = analyze app file name (t₁ ++ t₂) := by
  unfold analyze scanDirectImports scanSerializerClassDecls scanFieldUsages
    scanInheritance scanManyTrue scanInnerUsages scanMetaRefs
  rw [scanParentUsages_skip, scanDirectInstantiations_skip]
  simp only [scanTree_skip]

/-! ## Claim theorems -/

/-- C3: for every dotted string whose `.`-split segment list has the shape
`g :: mid ++ [m, c]` — exactly 3 segments when `mid = []`, more than 3
otherwise — the path resolver yields group `g` (the first segment), module
`m` (the second-to-last segment) and class name `c` (the last segment). -/
theorem parse_segments_c3 (path g m c : String) (mid : List String)
    (h : (splitChar '.' path.data).map (fun l => String.mk l) = g :: mid ++ [m, c]) :
    parseSerializerPath path = .ok (g, m, c) := by
  simp only [parseSerializerPath]
  rw [h]
  cases mid with
  | nil => simp
  | cons x xs =>
    have hlen : (g :: (x :: xs) ++ [m, c]).length = xs.length + 4 := by
      simp [List.length_append]
    rw [hlen]
    rw [if_neg (by omega), if_pos (by omega)]
    have h1 : (g :: (x :: xs) ++ [m, c]).headD "" = g := rfl
    have h2 : (g :: (x :: xs) ++ [m, c]).getD (xs.length + 4 - 2) "" = m := by
      have he : xs.length + 4 - 2 = xs.length + 1 + 1 := by omega
      have hsplit : g :: (x :: xs) ++ [m, c] = (g :: x :: xs) ++ [m, c] := by simp
      rw [he, List.getD_eq_getElem?_getD, hsplit,
        List.getElem?_append_right (by simp)]
      simp
    have h3 : (g :: (x :: xs) ++ [m, c]).getLastD "" = c := by
      have he : g :: (x :: xs) ++ [m, c] = (g :: (x :: xs) ++ [m]) ++ [c] := by simp
      rw [he, List.getLastD_concat]
    rw [h1, h2, h3]

/-- Witness for C3: a 3-segment path and a 5-segment path. -/
theorem parse_segments_c3_w :
    parseSerializerPath "app.views.UserSerializer" = .ok ("app", "views", "UserSerializer")
    ∧ parseSerializerPath "procurementapi.rest.serializers.procure.ProcureModelSerializer"
        = .ok ("procurementapi", "procure", "ProcureModelSerializer") :=
  ⟨parse_segments_c3 _ "app" "views" "UserSerializer" [] (by decide),
   parse_segments_c3 _ "procurementapi" "procure" "ProcureModelSerializer"
     ["rest", "serializers"] (by decide)⟩

/-- C7: the path resolver fails (with the invalid-reference `ValueError`)
exactly when the dotted string splits into fewer than 3 segments; any input
with at least 3 segments — empty segments included — succeeds, with no
validation beyond the split. -/
theorem parse_error_iff_c7 (path : String) :
    ((∃ e, parseSerializerPath path = .error e)
        ↔ (splitChar '.' path.data).length < 3)
    ∧ (3 ≤ (splitChar '.' path.data).length →
        ∃ g m c, parseSerializerPath path = .ok (g, m, c)) := by
  simp only [parseSerializerPath, List.length_map]
  by_cases h : (splitChar '.' path.data).length < 3
  · rw [if_pos h]
    constructor
    · exact iff_of_true ⟨_, rfl⟩ h
    · intro hle
      omega
  · rw [if_neg h]
    by_cases h2 : (splitChar '.' path.data).length > 3
    · rw [if_pos h2]
      refine ⟨?_, fun _ => ⟨_, _, _, rfl⟩⟩
      constructor
      · rintro ⟨e, he⟩
        simp at he
      · intro hlt
        omega
    · rw [if_neg h2]
      refine ⟨?_, fun _ => ⟨_, _, _, rfl⟩⟩
      constructor
      · rintro ⟨e, he⟩
        simp at he
      · intro hlt
        omega

/-- Witness for C7: `"a.b"` (2 segments) fails, and `".."` (3 empty
segments) succeeds. -/
theorem parse_error_iff_c7_w :
    (∃ e, parseSerializerPath "a.b" = .error e)
    ∧ ∃ g m c, parseSerializerPath ".." = .ok (g, m, c) :=
  ⟨(parse_error_iff_c7 "a.b").1.mpr (by decide),
   (parse_error_iff_c7 "..").2 (by decide)⟩

/-- C6: deduplication of a category keeps a subsequence of the original
list (original order); every kept occurrence is the first of the list with
its `(file, line)` key; a key occurring in the input survives exactly once
and a key not occurring survives zero times (`min 1 count`); and every record
of the direct-import pass has no line number, so after deduplication the
direct-import category holds at most one record per file. -/
theorem dedup_first_per_key_c6 :
    (∀ l : List Occ, List.Sublist (dedupCategory l) l)
    ∧ (∀ (l : List Occ) (o : Occ), o ∈ dedupCategory l →
        l.find? (fun x => decide (occKey x = occKey o)) = some o)
    ∧ (∀ (l : List Occ) (k : String × Nat),
        (dedupCategory l).countP (fun o => decide (occKey o = k))
          = min 1 (l.countP fun o => decide (occKey o = k)))
    ∧ (∀ (app file name : String) (tree : List SFile),
        (∀ o ∈ scanDirectImports app file name tree, o.line = none)
        ∧ ∀ fpath : String,
            (dedupCategory (scanDirectImports app file name tree)).countP
              (fun o => decide (o.file = fpath)) ≤ 1) := by
  refine ⟨dedupCategory_sublist, dedupCategory_find, dedupCategory_countP, ?_⟩
  intro app file name tree
  have himp : ∀ o ∈ scanDirectImports app file name tree, o.line = none := by
    intro o ho
    unfold scanDirectImports scanTree at ho
    rw [List.mem_flatMap] at ho
    obtain ⟨f, hf, ho⟩ := ho
    cases hc : f.content with
    | none => rw [hc] at ho; simp at ho
    | some c =>
      rw [hc] at ho
      unfold scanImportsFile at ho
      rw [List.mem_filterMap] at ho
      obtain ⟨r, hr, he⟩ := ho
      cases hm : r.findIter c.data with
      | nil => rw [hm] at he; simp at he
      | cons a rest =>
        obtain ⟨st, res⟩ := a
        rw [hm] at he
        simp only [Option.some.injEq] at he
        rw [← he]
  refine ⟨himp, ?_⟩
  intro fpath
  have hcong : (dedupCategory (scanDirectImports app file name tree)).countP
      (fun o => decide (o.file = fpath))
      = (dedupCategory (scanDirectImports app file name tree)).countP
          (fun o => decide (occKey o = (fpath, 0))) := by
    apply List.countP_congr
    intro o ho
    have hline : o.line = none :=
      himp o ((dedupCategory_sublist _).subset ho)
    simp [occKey, hline]
  rw [hcong, dedupCategory_countP]
  exact Nat.min_le_left 1 _

/-- Witness for C6: two same-key occurrences; the first is the one found. -/
theorem dedup_first_per_key_c6_w :
    [(⟨"f.py", some 1, "x"⟩ : Occ), ⟨"f.py", some 1, "y"⟩].find?
        (fun x => decide (occKey x = occKey (⟨"f.py", some 1, "x"⟩ : Occ)))
      = some ⟨"f.py", some 1, "x"⟩ :=
  dedup_first_per_key_c6.2.1 [⟨"f.py", some 1, "x"⟩, ⟨"f.py", some 1, "y"⟩]
    ⟨"f.py", some 1, "x"⟩ (by decide)

/-- Presence of a key in a deduplicated category is presence in the raw
category. -/
theorem dedup_key_mem_iff (l : List Occ) (k : String × Nat) :
    (∃ o ∈ dedupCategory l, occKey o = k) ↔ ∃ o ∈ l, occKey o = k := by
  constructor
  · rintro ⟨o, ho, hk⟩
    exact ⟨o, (dedupCategory_sublist l).subset ho, hk⟩
  · rintro ⟨o, ho, hk⟩
    have h1 : 0 < l.countP (fun o => decide (occKey o = k)) :=
      List.countP_pos_iff.mpr ⟨o, ho, by simp [hk]⟩
    have h2 := dedupCategory_countP l k
    have h3 : 0 < (dedupCategory l).countP (fun o => decide (occKey o = k)) := by
      omega
    obtain ⟨o', ho', hk'⟩ := List.countP_pos_iff.mp h3
    exact ⟨o', ho', by simpa using hk'⟩

/-- C5: analyzing `app.views.UserSerializer` over a tree whose file holds the
line `serializer_class = UserSerializer` yields, after deduplication, exactly
one `serializer_class_declarations` occurrence, at that file and line. -/
theorem serializer_class_fixture_c5 :
    parseSerializerPath "app.views.UserSerializer" = .ok ("app", "views", "UserSerializer")
    ∧ (analyze "app" "views" "UserSerializer"
          [⟨"app/views.py", some "serializer_class = UserSerializer"⟩]).serializer_class_declarations
        = [⟨"app/views.py", some 1, "serializer_class = UserSerializer"⟩] :=
  ⟨rfl, by decide⟩

/-- C4 counterexample: scanning target `Foo`, the defining line
`class Foo(FooBase):` IS recorded in `serializer_inheritance` (the claim says
the defining line never is), and `class Bar(FooBar):` is recorded although
`Bar` lists `FooBar`, not `Foo`, as its base (the claim says a line is
recorded only when another definition lists `Foo` itself as a base): the
pattern `class\s+\w+\(Foo.*\):` only requires the base-list text to begin
with `Foo`. -/
theorem inheritance_counterexample_c4 :
    (analyze "a" "f" "Foo" [⟨"f.py", some "class Foo(FooBase):"⟩]).serializer_inheritance
      = [⟨"f.py", some 1, "class Foo(FooBase):"⟩]
    ∧ (analyze "a" "f" "Foo" [⟨"f.py", some "class Bar(FooBar):"⟩]).serializer_inheritance
      = [⟨"f.py", some 1, "class Bar(FooBar):"⟩] :=
  ⟨by decide, by decide⟩

/-- C4 (amended): scanning target `Foo` over a single-file tree, a line is
recorded in `serializer_inheritance` exactly when it matches
`class\s+\w+\(Foo.*\):`, i.e. it is a class-definition line whose base-list
text begins with `Foo`; in particular the defining line
`class Foo(BaseSerializer):` is never recorded (its base list does not begin
with `Foo`). -/
theorem inheritance_iff_pattern_c4 (app file p content : String) (j : Nat)
    (L : List Char) (h : (linesOf content)[j]? = some L) :
    ((∃ o ∈ (analyze app file "Foo" [⟨p, some content⟩]).serializer_inheritance,
        occKey o = (p, j + 1)) ↔ (inheritancePat "Foo").search L = true)
    ∧ (L = "class Foo(BaseSerializer):".data →
        ¬∃ o ∈ (analyze app file "Foo" [⟨p, some content⟩]).serializer_inheritance,
            occKey o = (p, j + 1)) := by
  have hcat : (analyze app file "Foo" [⟨p, some content⟩]).serializer_inheritance
      = dedupCategory (scanLinesGo [inheritancePat "Foo"] p 1 (linesOf content)) := by
    simp [analyze, dedupResults, scanInheritance, scanTree]
  have hc := scanLinesGo_countP [inheritancePat "Foo"] p 1 j (linesOf content) L h
  have hadd : 1 + j = j + 1 := by omega
  rw [hadd] at hc
  have hiff : (∃ o ∈ (analyze app file "Foo" [⟨p, some content⟩]).serializer_inheritance,
      occKey o = (p, j + 1)) ↔ (inheritancePat "Foo").search L = true := by
    rw [hcat, dedup_key_mem_iff]
    constructor
    · rintro ⟨o, ho, hk⟩
      have hpos : 0 < (scanLinesGo [inheritancePat "Foo"] p 1 (linesOf content)).countP
          (fun o => decide (occKey o = (p, j + 1))) :=
        List.countP_pos_iff.mpr ⟨o, ho, by simp [hk]⟩
      rw [hc] at hpos
      by_cases hs : (inheritancePat "Foo").search L = true
      · exact hs
      · exfalso
        simp only [List.filter_cons, List.filter_nil, hs] at hpos
        simp at hpos
    · intro hs
      have hpos : 0 < (scanLinesGo [inheritancePat "Foo"] p 1 (linesOf content)).countP
          (fun o => decide (occKey o = (p, j + 1))) := by
        rw [hc]
        simp [List.filter_cons, hs]
      obtain ⟨o, ho, hk⟩ := List.countP_pos_iff.mp hpos
      exact ⟨o, ho, by simpa using hk⟩
  refine ⟨hiff, ?_⟩
  intro hL hmem
  have hs := hiff.mp hmem
  rw [hL] at hs
  exact absurd hs (by decide)

/-- Witness for the amended C4: `class Baz(Foo):` is recorded. -/
theorem inheritance_iff_pattern_c4_w :
    ∃ o ∈ (analyze "a" "f" "Foo"
        [⟨"v.py", some "class Baz(Foo):"⟩]).serializer_inheritance,
      occKey o = ("v.py", 1) :=
  (inheritance_iff_pattern_c4 "a" "f" "v.py" "class Baz(Foo):" 0
      "class Baz(Foo):".data (by decide)).1.mpr (by decide)

/-- C8: a file whose read fails (`content = none`) is skipped by every
pass: the whole scan returns exactly the result of scanning the same tree
with that file absent, and no error escapes `analyze`. -/
theorem unreadable_skipped_c8 (app file name p : String) (t₁ t₂ : List SFile) :
    analyze app file name (t₁ ++ ⟨p, none⟩ :: t₂) = analyze app file name (t₁ ++ t₂) :=
  analyze_skip app file name p t₁ t₂

/-- For a single-file tree, a line that contains `class` or `=` contributes
no direct-instantiation record at its `(file, line)` key. -/
theorem singleFile_inst_countP_zero (name p content : String) (j : Nat) (L : List Char)
    (hline : (linesOf content)[j]? = some L)
    (hbad : subStr "class".data L = true ∨ subStr "=".data L = true) :
    (scanDirectInstantiations name [⟨p, some content⟩]).countP
      (fun o => decide (occKey o = (p, j + 1))) = 0 := by
  rw [List.countP_eq_zero]
  intro o ho hdec
  obtain ⟨f, hf, c, hcont, j2, L2, hjL, hoeq, hc1, hc2⟩ :=
    mem_scanDirectInstantiations name _ o ho
  simp only [List.mem_singleton] at hf
  subst hf
  have hcc : c = content := by
    simp only at hcont
    exact (Option.some.injEq _ _ ▸ hcont).symm
  subst hcc
  rw [hoeq] at hdec
  simp only [occKey, Option.getD_some, decide_eq_true_eq, Prod.mk.injEq] at hdec
  have hjj : j2 = j := by omega
  subst hjj
  rw [hline] at hjL
  have hLL : L2 = L := by
    simpa using hjL.symm
  subst hLL
  rcases hbad with hb | hb
  · rw [hc1] at hb
    simp at hb
  · rw [hc2] at hb
    simp at hb

/-- C1: for a scan of `UserSerializer` over a single-file tree with the line
`profile = UserSerializer(many=True)` at index `i`, the result has exactly
one `field_usages` occurrence and exactly one `many_true_usages` occurrence
at that `(file, line)`, and no `direct_instantiations` occurrence there (the
line contains `=`, which that pass excludes). -/
theorem field_many_inst_fixture_c1 (app file p content : String) (i : Nat)
    (h : (linesOf content)[i]? = some "profile = UserSerializer(many=True)".data) :
    ((analyze app file "UserSerializer" [⟨p, some content⟩]).field_usages.countP
        (fun o => decide (occKey o = (p, i + 1))) = 1)
    ∧ ((analyze app file "UserSerializer" [⟨p, some content⟩]).many_true_usages.countP
        (fun o => decide (occKey o = (p, i + 1))) = 1)
    ∧ ((analyze app file "UserSerializer" [⟨p, some content⟩]).direct_instantiations.countP
        (fun o => decide (occKey o = (p, i + 1))) = 0) := by
  have hadd : 1 + i = i + 1 := by omega
  refine ⟨?_, ?_, ?_⟩
  · have hcat : (analyze app file "UserSerializer" [⟨p, some content⟩]).field_usages
        = dedupCategory (scanLinesGo (fieldPats "UserSerializer") p 1 (linesOf content)) := by
      simp [analyze, dedupResults, scanFieldUsages, scanTree]
    have hc := scanLinesGo_countP (fieldPats "UserSerializer") p 1 i (linesOf content) _ h
    rw [hadd] at hc
    rw [hcat, dedupCategory_countP, hc]
    decide
  · have hcat : (analyze app file "UserSerializer" [⟨p, some content⟩]).many_true_usages
        = dedupCategory (scanLinesGo (manyTruePats "UserSerializer") p 1 (linesOf content)) := by
      simp [analyze, dedupResults, scanManyTrue, scanTree]
    have hc := scanLinesGo_countP (manyTruePats "UserSerializer") p 1 i (linesOf content) _ h
    rw [hadd] at hc
    rw [hcat, dedupCategory_countP, hc]
    decide
  · have hcat : (analyze app file "UserSerializer" [⟨p, some content⟩]).direct_instantiations
        = dedupCategory (scanDirectInstantiations "UserSerializer" [⟨p, some content⟩]) := by
      simp [analyze, dedupResults]
    have hz := singleFile_inst_countP_zero "UserSerializer" p content i _ h (Or.inr (by decide))
    rw [hcat, dedupCategory_countP, hz]
    simp

/-- Witness for C1: the one-line fixture file itself. -/
theorem field_many_inst_fixture_c1_w :
    ((analyze "app" "views" "UserSerializer"
        [⟨"p.py", some "profile = UserSerializer(many=True)"⟩]).field_usages.countP
        (fun o => decide (occKey o = ("p.py", 1))) = 1)
    ∧ ((analyze "app" "views" "UserSerializer"
        [⟨"p.py", some "profile = UserSerializer(many=True)"⟩]).many_true_usages.countP
        (fun o => decide (occKey o = ("p.py", 1))) = 1)
    ∧ ((analyze "app" "views" "UserSerializer"
        [⟨"p.py", some "profile = UserSerializer(many=True)"⟩]).direct_instantiations.countP
        (fun o => decide (occKey o = ("p.py", 1))) = 0) :=
  field_many_inst_fixture_c1 "app" "views" "p.py"
    "profile = UserSerializer(many=True)" 0 (by decide)

/-- C9: a line recorded as a `{name}.Meta` reference whose text does not
contain `serializer_class` is also recorded as an inner-class usage (the
`Meta` pattern is a special case of the inner-attribute pattern), so the
line contributes at least 2 to the batch `total_usages` sum. -/
theorem meta_implies_inner_c9 (app file name p content : String) (tree : List SFile)
    (j : Nat) (L : List Char)
    (hmem : (⟨p, some content⟩ : SFile) ∈ tree)
    (hline : (linesOf content)[j]? = some L)
    (hmeta : (metaPat name).search L = true)
    (hnsc : subStr "serializer_class".data L = false) :
    (∃ o ∈ (analyze app file name tree).meta_class_references, occKey o = (p, j + 1))
    ∧ (∃ o ∈ (analyze app file name tree).inner_class_usages, occKey o = (p, j + 1))
    ∧ 2 ≤ totalUsages (analyze app file name tree) := by
  have hadd : 1 + j = j + 1 := by omega
  have hinner : (innerPat name).search L = true := metaPat_search_inner name L hmeta
  have hmetaCat : (analyze app file name tree).meta_class_references
      = dedupCategory (scanMetaRefs name tree) := by
    simp [analyze, dedupResults]
  have hinnerCat : (analyze app file name tree).inner_class_usages
      = dedupCategory (scanInnerUsages name tree) := by
    simp [analyze, dedupResults]
  have hmetaRaw : ∃ o ∈ scanMetaRefs name tree, occKey o = (p, j + 1) := by
    have hc := scanLinesGo_countP [metaPat name] p 1 j (linesOf content) L hline
    rw [hadd] at hc
    have hpos : 0 < (scanLinesGo [metaPat name] p 1 (linesOf content)).countP
        (fun o => decide (occKey o = (p, j + 1))) := by
      rw [hc]
      simp [List.filter_cons, hmeta]
    obtain ⟨o, ho, hk⟩ := List.countP_pos_iff.mp hpos
    exact ⟨o, mem_scanTree _ tree o ⟨p, some content⟩ hmem content rfl ho,
      by simpa using hk⟩
  have hinnerRaw : ∃ o ∈ scanInnerUsages name tree, occKey o = (p, j + 1) := by
    have hc := scanInnerGo_countP name p 1 j (linesOf content) L hline
    rw [hadd] at hc
    have hpos : 0 < (scanInnerGo name p 1 (linesOf content)).countP
        (fun o => decide (occKey o = (p, j + 1))) := by
      rw [hc]
      simp [hinner, hnsc]
    obtain ⟨o, ho, hk⟩ := List.countP_pos_iff.mp hpos
    exact ⟨o, mem_scanTree _ tree o ⟨p, some content⟩ hmem content rfl ho,
      by simpa using hk⟩
  have hm := (dedup_key_mem_iff (scanMetaRefs name tree) (p, j + 1)).mpr hmetaRaw
  have hi := (dedup_key_mem_iff (scanInnerUsages name tree) (p, j + 1)).mpr hinnerRaw
  rw [← hmetaCat] at hm
  rw [← hinnerCat] at hi
  refine ⟨hm, hi, ?_⟩
  obtain ⟨om, hom, -⟩ := hm
  obtain ⟨oi, hoi, -⟩ := hi
  have h1 : 0 < (analyze app file name tree).meta_class_references.length :=
    List.length_pos_of_mem hom
  have h2 : 0 < (analyze app file name tree).inner_class_usages.length :=
    List.length_pos_of_mem hoi
  unfold totalUsages
  omega

/-- Witness for C9: the line `x = S.Meta` for target `S`. -/
theorem meta_implies_inner_c9_w :
    (∃ o ∈ (analyze "a" "f" "S" [⟨"v.py", some "x = S.Meta"⟩]).meta_class_references,
        occKey o = ("v.py", 1))
    ∧ (∃ o ∈ (analyze "a" "f" "S" [⟨"v.py", some "x = S.Meta"⟩]).inner_class_usages,
        occKey o = ("v.py", 1))
    ∧ 2 ≤ totalUsages (analyze "a" "f" "S" [⟨"v.py", some "x = S.Meta"⟩]) :=
  meta_implies_inner_c9 "a" "f" "S" "v.py" "x = S.Meta" [⟨"v.py", some "x = S.Meta"⟩]
    0 "x = S.Meta".data (by decide) (by decide) (by decide) (by decide)

/-- C10: the direct-instantiation pass only ever records occurrences whose
source line contains neither the substring `class` nor the character `=`;
over a single-file tree, a line containing either contributes nothing to the
category at its `(file, line)` key. -/
theorem inst_excludes_class_eq_c10 :
    (∀ (name : String) (tree : List SFile) (o : Occ),
        o ∈ scanDirectInstantiations name tree →
        ∃ f ∈ tree, ∃ c, f.content = some c ∧ ∃ j L, (linesOf c)[j]? = some L
          ∧ o.file = f.path ∧ o.line = some (1 + j)
          ∧ subStr "class".data L = false ∧ subStr "=".data L = false)
    ∧ (∀ (app file name p content : String) (j : Nat) (L : List Char),
        (linesOf content)[j]? = some L →
        (subStr "class".data L = true ∨ subStr "=".data L = true) →
        (analyze app file name [⟨p, some content⟩]).direct_instantiations.countP
          (fun o => decide (occKey o = (p, j + 1))) = 0) := by
  constructor
  · intro name tree o ho
    obtain ⟨f, hf, c, hcont, j, L, hjL, hoeq, hc1, hc2⟩ :=
      mem_scanDirectInstantiations name tree o ho
    exact ⟨f, hf, c, hcont, j, L, hjL, by rw [hoeq], by rw [hoeq], hc1, hc2⟩
  · intro app file name p content j L hline hbad
    have hcat : (analyze app file name [⟨p, some content⟩]).direct_instantiations
        = dedupCategory (scanDirectInstantiations name [⟨p, some content⟩]) := by
      simp [analyze, dedupResults]
    have hz := singleFile_inst_countP_zero name p content j L hline hbad
    rw [hcat, dedupCategory_countP, hz]
    simp

/-- Witness for C10: a bare call `Bar()` is recorded and its line indeed
contains neither `class` nor `=`. -/
theorem inst_excludes_class_eq_c10_w :
    ∃ f ∈ [(⟨"x.py", some "Bar()"⟩ : SFile)], ∃ c, f.content = some c
      ∧ ∃ j L, (linesOf c)[j]? = some L
      ∧ (⟨"x.py", some 1, "Bar()"⟩ : Occ).file = f.path
      ∧ (⟨"x.py", some 1, "Bar()"⟩ : Occ).line = some (1 + j)
      ∧ subStr "class".data L = false ∧ subStr "=".data L = false :=
  inst_excludes_class_eq_c10.1 "Bar" [⟨"x.py", some "Bar()"⟩]
    ⟨"x.py", some 1, "Bar()"⟩ (by decide)

/-- A completed per-candidate scan reports the candidate it was given. -/
theorem candScan_cand (tree : List SFile) (c : Candidate) (r : CandResult)
    (h : candScan tree c = some r) : r.cand = c := by
  unfold candScan at h
  cases hp : parseSerializerPath c.path with
  | error e => rw [hp] at h; simp at h
  | ok t =>
    obtain ⟨a, f, s⟩ := t
    rw [hp] at h
    simp only [Option.some.injEq] at h
    rw [← h]

/-- C2: in batch mode, a candidate whose scan completes appears in the
unused list iff its `total_usages` (the sum over the eight categories) is at
most the threshold; the final list is sorted ascending by `total_usages`;
and for each total value the entries appear in their enumeration
(discovery) order, i.e. the sorted list filtered to one total equals the
pre-sort unused list filtered to that total. -/
theorem batch_unused_c2 (th : Int) (cands : List Candidate) (tree : List SFile) :
    (∀ c ∈ cands, ∀ r, candScan tree c = some r →
        ((∃ e ∈ findUnused th cands tree, e.cand = c) ↔ (r.total : Int) ≤ th))
    ∧ (findUnused th cands tree).Pairwise (fun a b => a.total ≤ b.total)
    ∧ (∀ t : Nat, (findUnused th cands tree).filter (fun e => decide (e.total = t))
        = (unusedCandidates th cands tree).filter (fun e => decide (e.total = t))) := by
  have htrans : ∀ (a b c : CandResult), decide (a.total ≤ b.total) = true →
      decide (b.total ≤ c.total) = true → decide (a.total ≤ c.total) = true := by
    intro a b c h1 h2
    simp only [decide_eq_true_eq] at h1 h2 ⊢
    omega
  have htot : ∀ (a b : CandResult),
      (decide (a.total ≤ b.total) || decide (b.total ≤ a.total)) = true := by
    intro a b
    simp only [Bool.or_eq_true, decide_eq_true_eq]
    omega
  refine ⟨?_, ?_, ?_⟩
  · intro c hc r hr
    constructor
    · rintro ⟨e, he, hec⟩
      unfold findUnused at he
      have he2 := List.mem_mergeSort.mp he
      unfold unusedCandidates at he2
      rw [List.mem_filterMap] at he2
      obtain ⟨c2, hc2, hbind⟩ := he2
      cases hs : candScan tree c2 with
      | none => rw [hs] at hbind; simp at hbind
      | some r2 =>
        rw [hs] at hbind
        simp only [Option.some_bind] at hbind
        by_cases hth : (r2.total : Int) ≤ th
        · rw [if_pos hth] at hbind
          simp only [Option.some.injEq] at hbind
          have hcand : r2.cand = c2 := candScan_cand tree c2 r2 hs
          have hc2c : c2 = c := by
            rw [← hec, ← hbind, hcand]
          rw [hc2c] at hs
          rw [hr] at hs
          simp only [Option.some.injEq] at hs
          rw [hs]
          exact hth
        · rw [if_neg hth] at hbind
          simp at hbind
    · intro hth
      have hmem : r ∈ unusedCandidates th cands tree := by
        unfold unusedCandidates
        rw [List.mem_filterMap]
        refine ⟨c, hc, ?_⟩
        rw [hr]
        simp only [Option.some_bind]
        rw [if_pos hth]
      refine ⟨r, ?_, candScan_cand tree c r hr⟩
      unfold findUnused
      exact List.mem_mergeSort.mpr hmem
  · have hs := List.sorted_mergeSort htrans htot (unusedCandidates th cands tree)
    unfold findUnused
    exact hs.imp (by intro a b hab; simpa using hab)
  · intro t
    have hpw : ((unusedCandidates th cands tree).filter
        (fun e => decide (e.total = t))).Pairwise
          (fun a b => decide (a.total ≤ b.total) = true) := by
      apply List.pairwise_of_forall_mem_list
      intro a ha b hb
      have ha2 := (List.mem_filter.mp ha).2
      have hb2 := (List.mem_filter.mp hb).2
      simp only [decide_eq_true_eq] at ha2 hb2 ⊢
      omega
    have hsubsort := List.sublist_mergeSort htrans htot hpw
      (List.filter_sublist (unusedCandidates th cands tree))
    have hperm := List.mergeSort_perm (unusedCandidates th cands tree)
      (fun a b => decide (a.total ≤ b.total))
    have hcount : (((unusedCandidates th cands tree).mergeSort
          (fun a b => decide (a.total ≤ b.total))).filter
            (fun e => decide (e.total = t))).length
        = ((unusedCandidates th cands tree).filter
            (fun e => decide (e.total = t))).length := by
      rw [← List.countP_eq_length_filter, ← List.countP_eq_length_filter]
      exact hperm.countP_eq _
    have hsubf := hsubsort.filter (fun e => decide (e.total = t))
    have hff : ((unusedCandidates th cands tree).filter
          (fun e => decide (e.total = t))).filter (fun e => decide (e.total = t))
        = (unusedCandidates th cands tree).filter (fun e => decide (e.total = t)) :=
      List.filter_eq_self.mpr (fun a ha => (List.mem_filter.mp ha).2)
    rw [hff] at hsubf
    unfold findUnused
    exact (hsubf.eq_of_length hcount.symm).symm

/-- Witness for C2: one candidate with a completing scan and zero usages at
threshold 0 lands in the unused list. -/
theorem batch_unused_c2_w :
    ∃ e ∈ findUnused 0 [⟨"S", "a.b.S", "a/b.py"⟩] [],
      e.cand = (⟨"S", "a.b.S", "a/b.py"⟩ : Candidate) :=
  ((batch_unused_c2 0 [⟨"S", "a.b.S", "a/b.py"⟩] []).1
      ⟨"S", "a.b.S", "a/b.py"⟩ (by decide)
      ⟨⟨"S", "a.b.S", "a/b.py"⟩, 0, ⟨[], [], [], [], [], [], [], []⟩⟩
      (by decide)).mpr (by decide)

end SerScan
